import Mathlib

set_option maxHeartbeats 1000000

/-!
Verification of the client-side movement classification, aggregation and
view-derivation pipeline of a household finance dashboard. The definitions
below are a shallow embedding of the TypeScript source: pure helper
functions become Lean functions, JavaScript numbers are modelled as exact
rationals, loosely typed runtime values as an explicit sum type, and the
ECMAScript Map and Set containers as association lists that preserve
insertion order.
-/

/-- The two-valued movement kind the resolver produces. -/
inductive Kind where
  | ingreso
  | gasto
deriving DecidableEq, Repr

/-- Runtime values a loosely typed record field can hold: booleans,
numbers (modelled as integers, which covers every encoding the code
distinguishes), strings, null and undefined. -/
inductive JSVal where
  | vBool (b : Bool)
  | vNum (n : Int)
  | vStr (s : String)
  | vNull
  | vUndef
deriving DecidableEq, Repr

/-- Whitespace characters recognised by the JS regular expression class
backslash-s, restricted to the ASCII whitespace the data can contain. -/
def isWs (c : Char) : Bool := c = ' ' || c = '\t' || c = '\n' || c = '\r'

/-- Model of the JS toLowerCase character mapping: ASCII letters plus the
accented capitals of the Spanish alphabet the dashboard data uses. -/
def jsCharLower (c : Char) : Char :=
  match c with
  | 'Á' => 'á'
  | 'É' => 'é'
  | 'Í' => 'í'
  | 'Ó' => 'ó'
  | 'Ú' => 'ú'
  | 'Ü' => 'ü'
  | 'Ñ' => 'ñ'
  | _ => c.toLower

/-- Model of the JS String.toLowerCase method. -/
def jsToLower (s : String) : String := ⟨s.data.map jsCharLower⟩

/-- Canonical NFD decomposition for the accented lowercase letters the
data uses; identity on every other character. -/
def nfdChar (c : Char) : List Char :=
  match c with
  | 'á' => ['a', Char.ofNat 0x301]
  | 'é' => ['e', Char.ofNat 0x301]
  | 'í' => ['i', Char.ofNat 0x301]
  | 'ó' => ['o', Char.ofNat 0x301]
  | 'ú' => ['u', Char.ofNat 0x301]
  | 'ü' => ['u', Char.ofNat 0x308]
  | 'ñ' => ['n', Char.ofNat 0x303]
  | _ => [c]

/-- Combining diacritical marks, the Unicode range 0300 to 036F that the
source strips with a regular expression replace. -/
def isCombiningMark (c : Char) : Bool := 0x300 ≤ c.toNat && c.toNat ≤ 0x36F

/-- Source normalizeText: lower-case, normalize to NFD, strip the
combining marks. -/
def normalizeText (s : String) : String :=
  ⟨((s.data.map jsCharLower).flatMap nfdChar).filter (fun c => !isCombiningMark c)⟩

/-- Drop leading and trailing whitespace of a character list. -/
def trimWsL (l : List Char) : List Char :=
  ((l.dropWhile isWs).reverse.dropWhile isWs).reverse

/-- Model of the JS String.trim method. -/
def jsTrim (s : String) : String := ⟨trimWsL s.data⟩

/-- Does the first list stand at the front of the second one? -/
def leadsList : List Char → List Char → Bool
  | [], _ => true
  | _ :: _, [] => false
  | a :: as, b :: bs => a = b && leadsList as bs

/-- Does the needle occur inside the haystack (second argument)? -/
def containsSub (needle : List Char) : List Char → Bool
  | [] => leadsList needle []
  | c :: t => leadsList needle (c :: t) || containsSub needle t

/-- Model of the JS String.includes method. -/
def strIncludes (s sub : String) : Bool := containsSub sub.data s.data

/-- Source normalizeKindLabel: classify one kind-like text as ingreso or
gasto by substring tests, or fail with none. -/
def normalizeKindLabel (value : Option String) : Option Kind :=
  let tipo := jsTrim (jsToLower (value.getD ""))
  if tipo = "" then none
  else if strIncludes tipo "ingres" || strIncludes tipo "income" ||
      strIncludes tipo "entrada" || strIncludes tipo "abono" then some .ingreso
  else if strIncludes tipo "gast" || strIncludes tipo "expense" ||
      strIncludes tipo "salida" || strIncludes tipo "cargo" then some .gasto
  else if tipo = "i" then some .ingreso
  else if tipo = "g" then some .gasto
  else none

/-- The raw movement record, with the denormalized category columns the
classifier joins in. The importe field is a JS number or null, modelled
exactly as an optional rational; fijo is typed as an optional boolean but
handled as an untyped runtime value by the yearly pivot, so it is
modelled as a JSVal. -/
structure Movimiento where
  id : String
  fecha : String
  tipo : Option String
  importe : Option Rat
  detalle : Option String := none
  fijo : JSVal := JSVal.vUndef
  categoria_id : Option String := none
  categoria_nombre : Option String := none
  categoria_kind : Option String := none
deriving DecidableEq, Repr

/-- Source resolveKind: movement-level tipo text first, then the joined
category kind text, then the sign of the amount. -/
def resolveKind (mov : Movimiento) : Kind :=
  match normalizeKindLabel mov.tipo with
  | some k => k
  | none =>
    match normalizeKindLabel mov.categoria_kind with
    | some k => k
    | none => if mov.importe.getD 0 < 0 then .gasto else .ingreso

/-- C1: for every movement record, resolveKind terminates (it is a total
Lean function) and returns exactly one of ingreso or gasto; when neither
the movement-level tipo nor the category kind classifies, it returns
gasto exactly when the amount is negative and ingreso otherwise, which
for a missing amount means the default zero and hence ingreso. -/
theorem c1_resolveKind_total :
    ∀ mov : Movimiento,
      (resolveKind mov = Kind.ingreso ∨ resolveKind mov = Kind.gasto) ∧
      (normalizeKindLabel mov.tipo = none →
        normalizeKindLabel mov.categoria_kind = none →
        resolveKind mov =
          if mov.importe.getD 0 < 0 then Kind.gasto else Kind.ingreso) ∧
      (normalizeKindLabel mov.tipo = none →
        normalizeKindLabel mov.categoria_kind = none →
        mov.importe = none ∨ mov.importe = some 0 →
        resolveKind mov = Kind.ingreso) := by
  intro mov
  refine ⟨?_, ?_, ?_⟩
  · unfold resolveKind
    rcases normalizeKindLabel mov.tipo with _ | k
    · rcases normalizeKindLabel mov.categoria_kind with _ | k2
      · dsimp only
        split
        · exact Or.inr rfl
        · exact Or.inl rfl
      · cases k2
        · exact Or.inl rfl
        · exact Or.inr rfl
    · cases k
      · exact Or.inl rfl
      · exact Or.inr rfl
  · intro h1 h2
    unfold resolveKind
    rw [h1, h2]
  · intro h1 h2 h3
    unfold resolveKind
    rw [h1, h2]
    rcases h3 with h | h <;> rw [h] <;> norm_num

/-- A concrete movement with unclassifiable kind texts and a negative
amount. -/
def mvNegUnclass : Movimiento :=
  { id := "m1"
    fecha := "2024-01-01"
    tipo := some "transfer"
    importe := some (-50) }

/-- A concrete movement with no kind texts and a missing amount. -/
def mvMissingAmount : Movimiento :=
  { id := "m2"
    fecha := "2024-01-02"
    tipo := none
    importe := none }

/-- Closed instance of C1: a movement with unclassifiable texts and a
negative amount resolves to gasto, and one with a missing amount resolves
to ingreso. -/
theorem c1_witness :
    resolveKind mvNegUnclass = Kind.gasto ∧
    resolveKind mvMissingAmount = Kind.ingreso := by
  constructor
  · have h := (c1_resolveKind_total mvNegUnclass).2.1 (by decide) (by decide)
    rw [h]
    norm_num [mvNegUnclass]
  · exact (c1_resolveKind_total mvMissingAmount).2.2 (by decide) (by decide)
      (Or.inl rfl)

/-- C2: the movement-level tipo classification always wins; the category
kind is consulted only when the tipo fails, and the sign of the amount is
consulted only when both texts fail: whenever one of the two texts
classifies, changing the amount does not change the resolved kind, and
whenever the tipo classifies, changing the category kind does not change
it either. -/
theorem c2_resolveKind_precedence :
    ∀ mov : Movimiento,
      (∀ k, normalizeKindLabel mov.tipo = some k → resolveKind mov = k) ∧
      (normalizeKindLabel mov.tipo = none →
        ∀ k, normalizeKindLabel mov.categoria_kind = some k →
          resolveKind mov = k) ∧
      ((normalizeKindLabel mov.tipo).isSome = true ∨
          (normalizeKindLabel mov.categoria_kind).isSome = true →
        ∀ imp, resolveKind { mov with importe := imp } = resolveKind mov) ∧
      (∀ k, normalizeKindLabel mov.tipo = some k →
        ∀ ck imp,
          resolveKind { mov with categoria_kind := ck, importe := imp } = k) := by
  intro mov
  refine ⟨?_, ?_, ?_, ?_⟩
  · intro k h
    unfold resolveKind
    rw [h]
  · intro h1 k h2
    unfold resolveKind
    rw [h1, h2]
  · intro h imp
    unfold resolveKind
    dsimp only
    rcases h1 : normalizeKindLabel mov.tipo with _ | k
    · rcases h2 : normalizeKindLabel mov.categoria_kind with _ | k2
      · rcases h with h | h
        · rw [h1] at h
          simp at h
        · rw [h2] at h
          simp at h
      · rfl
    · rfl
  · intro k h ck imp
    unfold resolveKind
    dsimp only
    rw [h]

/-- A concrete movement whose explicit kind text says gasto while its
category kind says ingreso and its amount is positive. -/
def mvGastoOverIngreso : Movimiento :=
  { id := "m3"
    fecha := "2024-02-01"
    tipo := some "Gasto"
    importe := some 100
    categoria_kind := some "ingreso" }

/-- Closed instance of C2: explicit kind text gasto beats a category
resolved as ingreso and a positive amount. -/
theorem c2_witness : resolveKind mvGastoOverIngreso = Kind.gasto := by
  exact (c2_resolveKind_precedence mvGastoOverIngreso).1 Kind.gasto (by decide)

/-!
Model of the ECMAScript Array sort. With a consistent comparator the
ECMAScript sort produces the permutation ordered by the comparator and,
since ES2019, it is stable; a stable insertion sort is therefore a
faithful model. A comparator returns a JS number of which only the sign
is consulted.
-/

/-- Insert an element in front of the first element it need not follow,
as a stable insertion sort does. -/
def oInsert (c : α → α → Rat) (a : α) : List α → List α
  | [] => [a]
  | b :: l => if c a b ≤ 0 then a :: b :: l else b :: oInsert c a l

/-- Stable insertion sort driven by the comparator c. -/
def iSort (c : α → α → Rat) : List α → List α
  | [] => []
  | a :: l => oInsert c a (iSort c l)

theorem oInsert_perm (c : α → α → Rat) (a : α) (l : List α) :
    (oInsert c a l).Perm (a :: l) := by
  induction l with
  | nil => exact List.Perm.refl _
  | cons b l ih =>
    unfold oInsert
    split
    · exact List.Perm.refl _
    · exact (ih.cons b).trans (List.Perm.swap a b l)

theorem iSort_perm (c : α → α → Rat) (l : List α) : (iSort c l).Perm l := by
  induction l with
  | nil => exact List.Perm.refl _
  | cons a l ih => exact (oInsert_perm c a (iSort c l)).trans (ih.cons a)

theorem mem_oInsert {c : α → α → Rat} {a x : α} {l : List α} :
    x ∈ oInsert c a l ↔ x = a ∨ x ∈ l := by
  rw [(oInsert_perm c a l).mem_iff, List.mem_cons]

/-- Lexicographic chaining of two comparator results: the second counts
only when the first is a tie. -/
def lex2 (p q : Rat) : Rat := if p = 0 then q else p

/-- A consistent comparator: antisymmetric in sign, substitutive on ties
and transitive on strict results, as the ECMAScript specification
requires of a sort comparator. -/
structure CmpGood (c : α → α → Rat) : Prop where
  anti : ∀ a b, c a b = -(c b a)
  subs : ∀ a b, c a b = 0 → ∀ d, c a d = c b d
  ltTrans : ∀ a b d, c a b < 0 → c b d < 0 → c a d < 0

theorem CmpGood.total {c : α → α → Rat} (h : CmpGood c) (a b : α) :
    c a b ≤ 0 ∨ c b a ≤ 0 := by
  rcases le_or_lt (c a b) 0 with h1 | h1
  · exact Or.inl h1
  · refine Or.inr ?_
    rw [h.anti b a]
    linarith

theorem CmpGood.subsR {c : α → α → Rat} (h : CmpGood c) (a b : α)
    (hab : c a b = 0) (d : α) : c d a = c d b := by
  have h1 : c a d = c b d := h.subs a b hab d
  rw [h.anti d a, h.anti d b, h1]

theorem CmpGood.leTrans {c : α → α → Rat} (h : CmpGood c) (a b d : α)
    (h1 : c a b ≤ 0) (h2 : c b d ≤ 0) : c a d ≤ 0 := by
  rcases eq_or_lt_of_le h1 with he | hl
  · rw [h.subs a b he d]
    exact h2
  · rcases eq_or_lt_of_le h2 with he2 | hl2
    · rw [← h.subsR b d he2 a]
      exact le_of_lt hl
    · exact le_of_lt (h.ltTrans a b d hl hl2)

theorem cmpGood_diff (f : α → Rat) : CmpGood (fun a b => f a - f b) := by
  constructor
  · intro a b
    ring
  · intro a b hab d
    dsimp only at *
    have : f a = f b := by linarith
    rw [this]
  · intro a b d h1 h2
    dsimp only at *
    linarith

theorem CmpGood.neg {c : α → α → Rat} (h : CmpGood c) :
    CmpGood (fun a b => -(c a b)) := by
  constructor
  · intro a b
    dsimp only
    rw [h.anti a b]
  · intro a b hab d
    dsimp only at *
    have : c a b = 0 := by linarith
    rw [h.subs a b this d]
  · intro a b d h1 h2
    dsimp only at *
    have h1' : c b a < 0 := by rw [h.anti b a]; linarith
    have h2' : c d b < 0 := by rw [h.anti d b]; linarith
    have := h.ltTrans d b a h2' h1'
    rw [h.anti a d]
    linarith

theorem CmpGood.lex2comp {s t : α → α → Rat} (hs : CmpGood s)
    (ht : CmpGood t) : CmpGood (fun a b => lex2 (s a b) (t a b)) := by
  constructor
  · intro a b
    dsimp only [lex2]
    by_cases h : s a b = 0
    · have h' : s b a = 0 := by rw [hs.anti b a]; simp [h]
      rw [if_pos h, if_pos h', ht.anti a b]
    · have h' : ¬ s b a = 0 := by
        intro hc
        apply h
        rw [hs.anti a b, hc, neg_zero]
      rw [if_neg h, if_neg h', hs.anti a b]
  · intro a b hab d
    dsimp only [lex2] at *
    by_cases h : s a b = 0
    · rw [if_pos h] at hab
      have hsd := hs.subs a b h d
      by_cases h2 : s a d = 0
      · rw [if_pos h2, if_pos (hsd ▸ h2), ht.subs a b hab d]
      · rw [if_neg h2, if_neg (hsd ▸ h2), hsd]
    · rw [if_neg h] at hab
      exact absurd hab h
  · intro a b d h1 h2
    dsimp only [lex2] at *
    by_cases hab : s a b = 0
    · rw [if_pos hab] at h1
      by_cases hbd : s b d = 0
      · rw [if_pos hbd] at h2
        have had : s a d = 0 := by rw [hs.subs a b hab d]; exact hbd
        rw [if_pos had]
        exact ht.ltTrans a b d h1 h2
      · rw [if_neg hbd] at h2
        have had : s a d < 0 := by rw [hs.subs a b hab d]; exact h2
        rw [if_neg (ne_of_lt had)]
        exact had
    · rw [if_neg hab] at h1
      by_cases hbd : s b d = 0
      · rw [if_pos hbd] at h2
        have had : s a d < 0 := by rw [← hs.subsR b d hbd a]; exact h1
        rw [if_neg (ne_of_lt had)]
        exact had
      · rw [if_neg hbd] at h2
        have had : s a d < 0 := hs.ltTrans a b d h1 h2
        rw [if_neg (ne_of_lt had)]
        exact had

theorem oInsert_pairwise {c : α → α → Rat} (h : CmpGood c) (a : α)
    {l : List α} (hl : l.Pairwise (fun x y => c x y ≤ 0)) :
    (oInsert c a l).Pairwise (fun x y => c x y ≤ 0) := by
  induction l with
  | nil => simp [oInsert]
  | cons b l ih =>
    rw [List.pairwise_cons] at hl
    obtain ⟨hb, hl⟩ := hl
    unfold oInsert
    split
    · rename_i hab
      refine List.Pairwise.cons ?_ (List.Pairwise.cons hb hl)
      intro x hx
      rcases List.mem_cons.mp hx with rfl | hx
      · exact hab
      · exact h.leTrans a b x hab (hb x hx)
    · rename_i hab
      have hba : c b a ≤ 0 := by
        rw [h.anti b a]
        push_neg at hab
        linarith
      refine List.Pairwise.cons ?_ (ih hl)
      intro x hx
      rcases mem_oInsert.mp hx with rfl | hx
      · exact hba
      · exact hb x hx

theorem iSort_pairwise {c : α → α → Rat} (h : CmpGood c) (l : List α) :
    (iSort c l).Pairwise (fun x y => c x y ≤ 0) := by
  induction l with
  | nil => simp [iSort]
  | cons a l ih => exact oInsert_pairwise h a ih

/-- Sorting a list whose neighbours are already in comparator order is
the identity. -/
theorem iSort_of_chain {c : α → α → Rat} {l : List α}
    (hc : l.Chain' (fun x y => c x y ≤ 0)) : iSort c l = l := by
  induction l with
  | nil => rfl
  | cons a l ih =>
    have h1 : iSort c l = l := ih hc.tail
    unfold iSort
    rw [h1]
    cases l with
    | nil => rfl
    | cons b t =>
      have hab : c a b ≤ 0 := (List.chain'_cons.mp hc).1
      unfold oInsert
      rw [if_pos hab]

/-- Sign-valued lexicographic comparison of two character lists: the model
of the locale compare on strings, under which distinct sequences compare
by their first differing character. -/
def lexCmp : List Char → List Char → Rat
  | [], [] => 0
  | [], _ :: _ => -1
  | _ :: _, [] => 1
  | a :: as, b :: bs => if a < b then -1 else if b < a then 1 else lexCmp as bs

theorem lexCmp_anti : ∀ x y : List Char, lexCmp x y = -(lexCmp y x) := by
  intro x
  induction x with
  | nil =>
    intro y
    cases y <;> simp [lexCmp]
  | cons a as ih =>
    intro y
    cases y with
    | nil => simp [lexCmp]
    | cons b bs =>
      unfold lexCmp
      rcases lt_trichotomy a b with h | h | h
      · rw [if_pos h, if_neg (not_lt_of_gt h), if_pos h]
      · subst h
        simp only [if_neg (lt_irrefl a)]
        exact ih bs
      · rw [if_neg (not_lt_of_gt h), if_pos h, if_pos h]
        norm_num

theorem lexCmp_eq_zero : ∀ x y : List Char, lexCmp x y = 0 ↔ x = y := by
  intro x
  induction x with
  | nil =>
    intro y
    cases y <;> simp [lexCmp]
  | cons a as ih =>
    intro y
    cases y with
    | nil => simp [lexCmp]
    | cons b bs =>
      unfold lexCmp
      rcases lt_trichotomy a b with h | h | h
      · rw [if_pos h]
        simp only [neg_eq_zero]
        constructor
        · intro hc
          norm_num at hc
        · intro hc
          injection hc with h1 h2
          exact absurd h1 (ne_of_lt h)
      · subst h
        simp only [if_neg (lt_irrefl a)]
        rw [ih bs]
        constructor
        · intro hc
          rw [hc]
        · intro hc
          injection hc
      · rw [if_neg (not_lt_of_gt h), if_pos h]
        constructor
        · intro hc
          norm_num at hc
        · intro hc
          injection hc with h1 h2
          exact absurd h1.symm (ne_of_lt h)

theorem lexCmp_ltTrans :
    ∀ x y z : List Char, lexCmp x y < 0 → lexCmp y z < 0 → lexCmp x z < 0 := by
  intro x
  induction x with
  | nil =>
    intro y z h1 h2
    cases y with
    | nil => norm_num [lexCmp] at h1
    | cons b bs =>
      cases z with
      | nil => norm_num [lexCmp] at h2
      | cons c cs => simp [lexCmp]
  | cons a as ih =>
    intro y z h1 h2
    cases y with
    | nil => norm_num [lexCmp] at h1
    | cons b bs =>
      cases z with
      | nil => norm_num [lexCmp] at h2
      | cons c cs =>
        unfold lexCmp at h1 h2 ⊢
        rcases lt_trichotomy a b with hab | hab | hab
        · rcases lt_trichotomy b c with hbc | hbc | hbc
          · rw [if_pos (lt_trans hab hbc)]
            norm_num
          · subst hbc
            rw [if_pos hab]
            norm_num
          · rw [if_neg (not_lt_of_gt hbc), if_pos hbc] at h2
            norm_num at h2
        · subst hab
          rw [if_neg (lt_irrefl a)] at h1
          rcases lt_trichotomy a c with hac | hac | hac
          · rw [if_pos hac]
            norm_num
          · subst hac
            rw [if_neg (lt_irrefl a)] at h2 ⊢
            rw [if_neg (lt_irrefl a)] at h1 h2 ⊢
            exact ih bs cs h1 h2
          · rw [if_neg (not_lt_of_gt hac), if_pos hac] at h2
            norm_num at h2
        · rw [if_neg (not_lt_of_gt hab), if_pos hab] at h1
          norm_num at h1

/-- Any comparator obtained by lexicographically comparing a projection
to character lists is consistent. -/
theorem cmpGood_ofLex (f : α → List Char) :
    CmpGood (fun a b => lexCmp (f a) (f b)) := by
  constructor
  · intro a b
    exact lexCmp_anti (f a) (f b)
  · intro a b hab d
    dsimp only at *
    rw [(lexCmp_eq_zero (f a) (f b)).mp hab]
  · intro a b d h1 h2
    exact lexCmp_ltTrans (f a) (f b) (f d) h1 h2

/-- A movement with the derived columns the classifier attaches: resolved
kind, absolute magnitude used as the default sort value, display category
name and trimmed detail text. -/
structure MovRow extends Movimiento where
  kind : Kind
  sortValue : Rat
  categoryName : String
  detailText : Option String
deriving DecidableEq, Repr

/-- Attach the derived columns to one movement, as the movimientoRows
memo does. -/
def toMovRow (mov : Movimiento) : MovRow :=
  { toMovimiento := mov
    kind := resolveKind mov
    sortValue := |mov.importe.getD 0|
    categoryName := mov.categoria_nombre.getD "Sin categoría"
    detailText :=
      match mov.detalle with
      | some d => if 0 < (jsTrim d).data.length then some (jsTrim d) else none
      | none => none }

/-- The classified movement lists, ordered by descending magnitude and
eagerly partitioned into ingresos and gastos. -/
structure MovPartition where
  ingresos : List MovRow
  gastos : List MovRow
deriving DecidableEq, Repr

/-- Source movimientoRows memo. -/
def movimientoRows (movimientos : List Movimiento) : MovPartition :=
  let withKind := movimientos.map toMovRow
  let sorted := iSort (fun a b => b.sortValue - a.sortValue) withKind
  { ingresos := sorted.filter (fun mov => decide (mov.kind = Kind.ingreso))
    gastos := sorted.filter (fun mov => decide (mov.kind = Kind.gasto)) }

/-- Source filteredIngresos filter body (the gastos filter is the same
code with its own pair of toggles). -/
def movPassesFijoToggles (showFijos showVariables : Bool) (mov : MovRow) : Bool :=
  let isFijo := decide (mov.fijo = JSVal.vBool true)
  if isFijo && showFijos then true
  else if !isFijo && showVariables then true
  else false

/-- Source filteredIngresos / filteredGastos. -/
def filterFijoToggles (rows : List MovRow) (showFijos showVariables : Bool) :
    List MovRow :=
  rows.filter (movPassesFijoToggles showFijos showVariables)

theorem movPassesFijoToggles_iff (showFijos showVariables : Bool) (mov : MovRow) :
    movPassesFijoToggles showFijos showVariables mov = true ↔
      ((mov.fijo = JSVal.vBool true ∧ showFijos = true) ∨
        (mov.fijo ≠ JSVal.vBool true ∧ showVariables = true)) := by
  unfold movPassesFijoToggles
  by_cases h : mov.fijo = JSVal.vBool true <;> simp [h]

/-- C5: the fixed-variable toggle filter keeps a movement exactly when
the movement is fixed and the fixed toggle is on, or not fixed and the
variable toggle is on; with both toggles off it returns the empty list,
and applying the filter twice with the same toggle state equals applying
it once. -/
theorem c5_fijo_toggle_filter :
    ∀ (rows : List MovRow) (showFijos showVariables : Bool),
      (∀ mov, mov ∈ filterFijoToggles rows showFijos showVariables ↔
        mov ∈ rows ∧
          ((mov.fijo = JSVal.vBool true ∧ showFijos = true) ∨
            (mov.fijo ≠ JSVal.vBool true ∧ showVariables = true))) ∧
      (showFijos = false → showVariables = false →
        filterFijoToggles rows showFijos showVariables = []) ∧
      (filterFijoToggles (filterFijoToggles rows showFijos showVariables)
          showFijos showVariables =
        filterFijoToggles rows showFijos showVariables) := by
  intro rows showFijos showVariables
  refine ⟨?_, ?_, ?_⟩
  · intro mov
    unfold filterFijoToggles
    rw [List.mem_filter, movPassesFijoToggles_iff]
  · intro h1 h2
    subst h1
    subst h2
    unfold filterFijoToggles
    apply List.filter_eq_nil_iff.mpr
    intro mov _
    rw [Bool.not_eq_true]
    unfold movPassesFijoToggles
    by_cases h : mov.fijo = JSVal.vBool true <;> simp [h]
  · unfold filterFijoToggles
    apply List.filter_eq_self.mpr
    intro mov hmov
    exact List.of_mem_filter hmov

/-- Closed instance of C5: with both toggles off the concrete singleton
list filters to the empty list. -/
theorem c5_witness :
    filterFijoToggles [toMovRow mvNegUnclass] false false = [] := by
  exact (c5_fijo_toggle_filter [toMovRow mvNegUnclass] false false).2.1 rfl rfl

/-- Insertion-order deduplication: the model of building a JS Set from a
list and spreading it back into an array. -/
def setDedup : List String → List String
  | [] => []
  | a :: l => a :: setDedup (l.filter (fun x => decide (x ≠ a)))
termination_by l => l.length
decreasing_by
  simp only [List.length_cons]
  exact Nat.lt_succ_of_le (List.length_filter_le _ _)

theorem mem_setDedup : ∀ (l : List String) (x : String), x ∈ setDedup l ↔ x ∈ l := by
  intro l
  induction l using setDedup.induct with
  | case1 =>
    intro x
    simp [setDedup]
  | case2 a l ih =>
    intro x
    rw [setDedup]
    simp only [List.mem_cons]
    rw [ih x]
    by_cases hx : x = a
    · simp [hx]
    · simp only [hx, false_or]
      rw [List.mem_filter]
      simp [hx]

/-- Source ingresoCategories (gastoCategories is the same code): the
distinct category names of the toggle-filtered rows, sorted with the
locale compare. -/
def categoriesOf (rows : List MovRow) : List String :=
  iSort (fun a b => lexCmp a.data b.data)
    (setDedup (rows.map (fun mov => mov.categoryName)))

/-- Source safeSelectedIngresosCategory: keep the selection when it is
the sentinel or still available, otherwise fall back to the sentinel. -/
def safeSelectedCategory (selected : String) (cats : List String) : String :=
  if selected = "todas" ∨ selected ∈ cats then selected else "todas"

/-- Source displayedIngresos: the toggle-filtered rows narrowed to the
safe selection. -/
def displayedByCategory (rows : List MovRow) (selected : String) : List MovRow :=
  let safe := safeSelectedCategory selected (categoriesOf rows)
  if safe = "todas" then rows
  else rows.filter (fun mov => decide (mov.categoryName = safe))

theorem mem_categoriesOf (rows : List MovRow) (x : String) :
    x ∈ categoriesOf rows ↔ ∃ mov ∈ rows, mov.categoryName = x := by
  unfold categoriesOf
  rw [(iSort_perm _ _).mem_iff, mem_setDedup, List.mem_map]

/-- C9: when the selected category is not the sentinel and no longer
occurs among the category names of the toggle-filtered rows, the
displayed list is computed as if the selection were the sentinel: all
rows are shown, no error is raised and no stale filter is applied. -/
theorem c9_stale_selection_reset :
    ∀ (rows : List MovRow) (selected : String),
      selected ≠ "todas" →
      (∀ mov ∈ rows, mov.categoryName ≠ selected) →
      displayedByCategory rows selected = rows := by
  intro rows selected h1 h2
  have hmem : selected ∉ categoriesOf rows := by
    rw [mem_categoriesOf]
    rintro ⟨mov, hmov, hname⟩
    exact h2 mov hmov hname
  have hcond : ¬ (selected = "todas" ∨ selected ∈ categoriesOf rows) := by
    rintro (h | h)
    · exact h1 h
    · exact hmem h
  have hsafe : safeSelectedCategory selected (categoriesOf rows) = "todas" := by
    unfold safeSelectedCategory
    rw [if_neg hcond]
  unfold displayedByCategory
  rw [hsafe]
  simp

/-- Closed instance of C9: a stale selection over a concrete singleton
row list yields the whole list. -/
theorem c9_witness :
    displayedByCategory [toMovRow mvNegUnclass] "Comida" =
      [toMovRow mvNegUnclass] := by
  exact c9_stale_selection_reset [toMovRow mvNegUnclass] "Comida"
    (by decide) (by decide)


/-- Replace every run of whitespace by a single space, the model of the
regular expression replace in normalizeQuery; the flag records whether
the previous character belonged to a whitespace run. -/
def collapseAux : Bool → List Char → List Char
  | _, [] => []
  | prevWs, c :: rest =>
    if isWs c then
      if prevWs then collapseAux true rest
      else ' ' :: collapseAux true rest
    else c :: collapseAux false rest

/-- Whitespace-run collapsing over a character list. -/
def collapseWsL (l : List Char) : List Char := collapseAux false l

/-- Source normalizeQuery: normalizeText, collapse whitespace runs,
trim. -/
def normalizeQuery (value : String) : String :=
  jsTrim ⟨collapseWsL (normalizeText value).data⟩

/-- The locale number formatting collaborators that feed the search
haystack: the raw template interpolation of the amount, the plain locale
number and the locale currency string. They are host collaborators of the
core, so the embedding takes them as parameters. -/
structure NumFmt where
  raw : Rat → String
  plain : Rat → String
  currency : Rat → String

/-- The concatenated searchable text of one movement row, normalized as
filterMovementRows builds it: note that normalizeText does not touch
whitespace. -/
def movHaystack (fmt : NumFmt) (mov : MovRow) : String :=
  let amount := |mov.importe.getD 0|
  normalizeText (mov.categoryName ++ " " ++ (mov.detailText.getD "") ++ " " ++
    fmt.raw amount ++ " " ++ fmt.plain amount ++ " " ++ fmt.currency amount)

/-- Source filterMovementRows: keep the rows whose normalized haystack
includes the already-normalized query; an empty query keeps everything. -/
def filterMovementRows (fmt : NumFmt) (rows : List MovRow) (query : String) :
    List MovRow :=
  if query = "" then rows
  else rows.filter (fun mov => containsSub query.data (movHaystack fmt mov).data)

/-- The search pipeline as the page wires it: the raw search text goes
through normalizeQuery before filterMovementRows runs. -/
def searchMovementRows (fmt : NumFmt) (rows : List MovRow) (rawQuery : String) :
    List MovRow :=
  filterMovementRows fmt rows (normalizeQuery rawQuery)

/-- Modelled from the spec for comparison with the code: claim C6 reads
the haystack as normalized by lower-casing, diacritic-stripping and also
collapsing internal whitespace before the containment test. -/
def claimSearchMovementRows (fmt : NumFmt) (rows : List MovRow)
    (rawQuery : String) : List MovRow :=
  let query := normalizeQuery rawQuery
  if query = "" then rows
  else rows.filter (fun mov =>
    containsSub query.data (collapseWsL (movHaystack fmt mov).data))

/-- Constant number formatters for concrete evaluations. -/
def fmtZero : NumFmt :=
  { raw := fun _ => "0", plain := fun _ => "0", currency := fun _ => "0" }

/-- A movement whose category name carries a double space. -/
def mvDoubleSpace : Movimiento :=
  { id := "m6"
    fecha := "2024-03-01"
    tipo := some "ingreso"
    importe := some 0
    categoria_nombre := some "a  b" }

/-- Counterexample to C6 as stated: the code does not collapse whitespace
inside the haystack, so the query built from the text a-space-b misses the
category a-double-space-b, while the claim, which collapses the haystack,
would keep the row. -/
theorem c6_counterexample :
    searchMovementRows fmtZero [toMovRow mvDoubleSpace] "a b" = [] ∧
    claimSearchMovementRows fmtZero [toMovRow mvDoubleSpace] "a b" =
      [toMovRow mvDoubleSpace] := by
  constructor
  · decide
  · decide

theorem containsSub_nil : ∀ hay : List Char, containsSub [] hay = true := by
  intro hay
  cases hay <;> simp [containsSub, leadsList]

/-- Facts about one whitespace character under the text normalizer. -/
theorem ws_char_facts (c : Char) (h : isWs c = true) :
    jsCharLower c = c ∧ nfdChar c = [c] ∧ isCombiningMark c = false := by
  unfold isWs at h
  simp only [Bool.or_eq_true, decide_eq_true_eq] at h
  rcases h with ((h | h) | h) | h <;> subst h <;>
    exact ⟨by decide, by decide, by decide⟩

theorem normalizeTextL_allWs :
    ∀ l : List Char, (∀ c ∈ l, isWs c = true) →
      ((l.map jsCharLower).flatMap nfdChar).filter
        (fun c => !isCombiningMark c) = l := by
  intro l h
  induction l with
  | nil => rfl
  | cons c t ih =>
    have hc := ws_char_facts c (h c (List.mem_cons_self c t))
    rw [List.map_cons, List.flatMap_cons, hc.1, hc.2.1,
      List.singleton_append, List.filter_cons]
    rw [hc.2.2]
    simp only [Bool.not_false, if_true]
    rw [ih (fun x hx => h x (List.mem_cons_of_mem c hx))]

theorem normalizeText_allWs {s : String} (h : ∀ c ∈ s.data, isWs c = true) :
    (normalizeText s).data = s.data := by
  exact normalizeTextL_allWs s.data h

theorem collapseAux_allWs :
    ∀ l : List Char, (∀ c ∈ l, isWs c = true) → collapseAux true l = [] := by
  intro l h
  induction l with
  | nil => rfl
  | cons c t ih =>
    rw [collapseAux, if_pos (h c (List.mem_cons_self c t)), if_pos rfl]
    exact ih (fun x hx => h x (List.mem_cons_of_mem c hx))

theorem normalizeQuery_allWs {s : String} (h : ∀ c ∈ s.data, isWs c = true) :
    normalizeQuery s = "" := by
  unfold normalizeQuery jsTrim collapseWsL
  have hdata : (normalizeText s).data = s.data := normalizeText_allWs h
  rw [hdata]
  cases hl : s.data with
  | nil => rfl
  | cons c t =>
    have hc : isWs c = true := h c (hl ▸ List.mem_cons_self c t)
    have ht : collapseAux true t = [] :=
      collapseAux_allWs t (fun x hx => h x (hl ▸ List.mem_cons_of_mem c hx))
    rw [collapseAux, if_pos hc, if_neg (by simp), ht]
    rfl

/-- C6 amended: the filter keeps exactly the rows whose haystack,
normalized by lower-casing and diacritic-stripping only, contains the
query, which alone is additionally whitespace-collapsed and trimmed; an
empty or whitespace-only raw query returns the input unchanged. -/
theorem c6_search_filter_amended :
    ∀ (fmt : NumFmt) (rows : List MovRow) (rawQuery : String),
      (∀ mov, mov ∈ searchMovementRows fmt rows rawQuery ↔
        mov ∈ rows ∧
          containsSub (normalizeQuery rawQuery).data
            (movHaystack fmt mov).data = true) ∧
      (normalizeQuery rawQuery = "" →
        searchMovementRows fmt rows rawQuery = rows) ∧
      ((∀ c ∈ rawQuery.data, isWs c = true) →
        searchMovementRows fmt rows rawQuery = rows) := by
  intro fmt rows rawQuery
  refine ⟨?_, ?_, ?_⟩
  · intro mov
    unfold searchMovementRows filterMovementRows
    by_cases hq : normalizeQuery rawQuery = ""
    · rw [if_pos hq, hq]
      have hnil : ("" : String).data = [] := rfl
      rw [hnil, containsSub_nil]
      simp
    · rw [if_neg hq, List.mem_filter]
  · intro hq
    unfold searchMovementRows filterMovementRows
    rw [if_pos hq]
  · intro hws
    unfold searchMovementRows filterMovementRows
    rw [if_pos (normalizeQuery_allWs hws)]

/-- Closed instance of the amended C6: a whitespace-only raw query leaves
the concrete singleton list unchanged. -/
theorem c6_witness :
    searchMovementRows fmtZero [toMovRow mvDoubleSpace] "  " =
      [toMovRow mvDoubleSpace] := by
  exact (c6_search_filter_amended fmtZero [toMovRow mvDoubleSpace] "  ").2.2
    (by decide)

/-- Digits of a character run, most significant first. -/
def charDigits (l : List Char) : Nat :=
  l.foldl (fun acc c => acc * 10 + (c.toNat - 48)) 0

/-- Model of the host Date.parse for the ISO formatted dates the store
holds: a strictly increasing encoding of year, month and day; none models
NaN for anything else. -/
def dateParse (s : String) : Option Rat :=
  match s.data with
  | [y1, y2, y3, y4, '-', m1, m2, '-', d1, d2] =>
    if [y1, y2, y3, y4, m1, m2, d1, d2].all Char.isDigit then
      some (((charDigits [y1, y2, y3, y4] * 12 + charDigits [m1, m2]) * 31 +
        charDigits [d1, d2] : Nat))
    else none
  | _ => none

/-- Add an element to an insertion-ordered set, as the JS Set add method
does. -/
def addToSet (l : List String) (x : String) : List String :=
  if x ∈ l then l else l ++ [x]

/-- Update the value under a key of an insertion-ordered association
list: in place for an existing key, appended for a new one, as the
ECMAScript Map set method does. -/
def alSet {κ β : Type} [DecidableEq κ] :
    List (κ × β) → κ → β → List (κ × β)
  | [], k, v => [(k, v)]
  | (k', v') :: rest, k, v =>
    if k' = k then (k, v) :: rest else (k', v') :: alSet rest k v

/-- Look a key up in an insertion-ordered association list. -/
def alGet {κ β : Type} [DecidableEq κ] : List (κ × β) → κ → Option β
  | [], _ => none
  | (k', v') :: rest, k => if k' = k then some v' else alGet rest k

/-- The grouping flags of buildGroupedRows. -/
structure GroupingOptions where
  byCategory : Bool
  byDetail : Bool
deriving DecidableEq, Repr

/-- A finalized grouped row. -/
structure GroupedRow where
  key : String
  categoryName : String
  detailText : String
  total : Rat
  fijoLabel : String
  latestDate : Rat
deriving DecidableEq, Repr

/-- The running bucket record buildGroupedRows accumulates. -/
structure GroupAcc where
  key : String
  categoryName : String
  detailText : String
  total : Rat
  hasFijo : Bool
  hasVariable : Bool
  latestDate : Rat
  categories : List String
  details : List String
deriving DecidableEq, Repr

/-- The fresh bucket record a new key starts from. -/
def emptyGroupAcc (key categoryName detailText : String) : GroupAcc :=
  { key := key
    categoryName := categoryName
    detailText := detailText
    total := 0
    hasFijo := false
    hasVariable := false
    latestDate := 0
    categories := []
    details := [] }

/-- One accumulation step of buildGroupedRows over the bucket map. -/
def buildStep (options : GroupingOptions) (grouped : List (String × GroupAcc))
    (mov : MovRow) : List (String × GroupAcc) :=
  let categoryName := mov.categoryName
  let detailText := mov.detailText.getD "—"
  let movementDate := (dateParse mov.fecha).getD 0
  let key := (if options.byCategory then categoryName else "todas") ++ "||" ++
    (if options.byDetail then detailText else "todas")
  let existing := (alGet grouped key).getD
    (emptyGroupAcc key categoryName detailText)
  let amount := |mov.importe.getD 0|
  let isFijo : Bool := decide (mov.fijo = JSVal.vBool true)
  let updated : GroupAcc :=
    { existing with
      total := existing.total + amount
      hasFijo := if isFijo then true else existing.hasFijo
      hasVariable := if isFijo then existing.hasVariable else true
      latestDate := if existing.latestDate < movementDate then movementDate
        else existing.latestDate
      categories := addToSet existing.categories categoryName
      details := addToSet existing.details detailText }
  alSet grouped key updated

/-- Finalize one bucket into a grouped row, deriving the fixed label and
the display labels of the collapsed dimensions. -/
def finalizeGroup (options : GroupingOptions) (row : GroupAcc) : GroupedRow :=
  let fijoLabel := if row.hasFijo && row.hasVariable then "Mixto"
    else if row.hasFijo then "Sí" else "No"
  let categoryLabel := if options.byCategory then row.categoryName
    else if row.categories.length = 1 then row.categories.headI else "Varias"
  let detailLabel := if options.byDetail then row.detailText
    else if row.details.length = 1 then row.details.headI else "Varias"
  { key := row.key
    categoryName := categoryLabel
    detailText := detailLabel
    total := row.total
    fijoLabel := fijoLabel
    latestDate := row.latestDate }

/-- Source buildGroupedRows: bucket the rows under the grouping key,
finalize every bucket in insertion order and sort descending by total. -/
def buildGroupedRows (rows : List MovRow) (options : GroupingOptions) :
    List GroupedRow :=
  let grouped := rows.foldl (buildStep options) []
  iSort (fun a b => b.total - a.total)
    ((grouped.map Prod.snd).map (finalizeGroup options))

theorem alGet_none_alSet {κ β : Type} [DecidableEq κ] :
    ∀ (m : List (κ × β)) (k : κ) (v : β),
      alGet m k = none → alSet m k v = m ++ [(k, v)] := by
  intro m k v h
  induction m with
  | nil => rfl
  | cons p rest ih =>
    obtain ⟨k', v'⟩ := p
    rw [alGet] at h
    rw [alSet]
    by_cases hk : k' = k
    · rw [if_pos hk] at h
      exact absurd h (by simp)
    · rw [if_neg hk] at h
      rw [if_neg hk, ih h]
      rfl

theorem alSet_some_sum (f : GroupAcc → Rat) :
    ∀ (m : List (String × GroupAcc)) (k : String) (v e : GroupAcc),
      alGet m k = some e →
      ((alSet m k v).map (fun p => f p.2)).sum + f e =
        (m.map (fun p => f p.2)).sum + f v := by
  intro m
  induction m with
  | nil =>
    intro k v e h
    simp [alGet] at h
  | cons p rest ih =>
    intro k v e h
    obtain ⟨k', v'⟩ := p
    rw [alGet] at h
    rw [alSet]
    by_cases hk : k' = k
    · rw [if_pos hk] at h
      injection h with he
      subst he
      rw [if_pos hk]
      simp only [List.map_cons, List.sum_cons]
      ring
    · rw [if_neg hk] at h
      rw [if_neg hk]
      simp only [List.map_cons, List.sum_cons]
      have := ih k v e h
      linarith

theorem alSet_getD_sum (m : List (String × GroupAcc)) (k : String)
    (e0 : GroupAcc) (upd : GroupAcc → GroupAcc) (a : Rat)
    (h0 : e0.total = 0)
    (hupd : ∀ e, (upd e).total = e.total + a) :
    ((alSet m k (upd ((alGet m k).getD e0))).map (fun p => p.2.total)).sum =
      (m.map (fun p => p.2.total)).sum + a := by
  cases hget : alGet m k with
  | none =>
    rw [alGet_none_alSet m k _ hget]
    rw [List.map_append, List.sum_append]
    simp [hupd e0, h0]
  | some e =>
    have h := alSet_some_sum (fun x => x.total) m k (upd e) e hget
    simp only [Option.getD_some]
    dsimp only at h
    linarith [hupd e]

theorem buildStep_total_sum (options : GroupingOptions)
    (m : List (String × GroupAcc)) (mov : MovRow) :
    ((buildStep options m mov).map (fun p => p.2.total)).sum =
      (m.map (fun p => p.2.total)).sum + |mov.importe.getD 0| := by
  unfold buildStep
  exact alSet_getD_sum m _ _
    (fun e =>
      { e with
        total := e.total + |mov.importe.getD 0|
        hasFijo := if decide (mov.fijo = JSVal.vBool true) then true
          else e.hasFijo
        hasVariable := if decide (mov.fijo = JSVal.vBool true) then e.hasVariable
          else true
        latestDate := if e.latestDate < (dateParse mov.fecha).getD 0 then
          (dateParse mov.fecha).getD 0 else e.latestDate
        categories := addToSet e.categories mov.categoryName
        details := addToSet e.details (mov.detailText.getD "—") })
    |mov.importe.getD 0| rfl (fun e => rfl)

theorem foldl_buildStep_sum (options : GroupingOptions) :
    ∀ (rows : List MovRow) (m : List (String × GroupAcc)),
      ((rows.foldl (buildStep options) m).map (fun p => p.2.total)).sum =
        (m.map (fun p => p.2.total)).sum +
          (rows.map (fun mov => |mov.importe.getD 0|)).sum := by
  intro rows
  induction rows with
  | nil =>
    intro m
    simp
  | cons mov rest ih =>
    intro m
    rw [List.foldl_cons, ih (buildStep options m mov), buildStep_total_sum]
    simp only [List.map_cons, List.sum_cons]
    ring

/-- C3: for every row list and grouping options, the totals of the
grouped rows sum to the sum of the absolute amounts of the input rows:
every movement lands in exactly one bucket and its whole magnitude is
counted exactly once. -/
theorem c3_grouping_total_conservation :
    ∀ (rows : List MovRow) (options : GroupingOptions),
      ((buildGroupedRows rows options).map (fun row => row.total)).sum =
        (rows.map (fun mov => |mov.importe.getD 0|)).sum := by
  intro rows options
  unfold buildGroupedRows
  rw [((iSort_perm (fun a b => b.total - a.total)
    (((rows.foldl (buildStep options) []).map Prod.snd).map
      (finalizeGroup options))).map (fun row => row.total)).sum_eq]
  rw [List.map_map, List.map_map]
  have hcomp : ((fun row => GroupedRow.total row) ∘ finalizeGroup options) ∘
      Prod.snd = fun p : String × GroupAcc => p.2.total := by
    funext p
    rfl
  rw [hcomp]
  have h := foldl_buildStep_sum options rows []
  simpa using h

/-- The five sort keys of the listings. -/
inductive SortKey where
  | fecha
  | categoria
  | detalle
  | fijo
  | importe
deriving DecidableEq, Repr

/-- The two sort directions. -/
inductive SortDirection where
  | asc
  | desc
deriving DecidableEq, Repr

/-- One sort state: a key and a direction. -/
structure SortState where
  key : SortKey
  direction : SortDirection
deriving DecidableEq, Repr

/-- Model of the locale compare with base sensitivity: compare the
diacritic-stripped lower-cased texts character by character. -/
def compareText (a b : String) : Rat :=
  lexCmp (normalizeText a).data (normalizeText b).data

/-- The getValue comparison of sortMovements per key: numeric keys
compare by difference, text keys by compareText. -/
def movPrimaryCmp (key : SortKey) (a b : MovRow) : Rat :=
  match key with
  | .fecha => (dateParse a.fecha).getD 0 - (dateParse b.fecha).getD 0
  | .categoria => compareText a.categoryName b.categoryName
  | .detalle => compareText (a.detailText.getD "") (b.detailText.getD "")
  | .fijo => (if a.fijo = JSVal.vBool true then (1 : Rat) else 0) -
      (if b.fijo = JSVal.vBool true then (1 : Rat) else 0)
  | .importe => |a.importe.getD 0| - |b.importe.getD 0|

/-- The comparator sortMovements passes to the array sort, over
index-tagged rows: the direction-adjusted primary comparison, then for a
non-amount key the descending-amount secondary comparison, finally the
original index. -/
def movCmp (sort : SortState) (a b : Nat × MovRow) : Rat :=
  let result0 := movPrimaryCmp sort.key a.2 b.2
  let result := if sort.direction = SortDirection.desc then -result0 else result0
  if result = 0 ∧ sort.key ≠ SortKey.importe then
    let secondary := |b.2.importe.getD 0| - |a.2.importe.getD 0|
    if secondary ≠ 0 then secondary
    else if result ≠ 0 then result else (a.1 : Rat) - (b.1 : Rat)
  else if result ≠ 0 then result else (a.1 : Rat) - (b.1 : Rat)

/-- Source sortMovements: tag every row with its original index, sort
with the comparator, untag. -/
def sortMovements (rows : List MovRow) (sort : SortState) : List MovRow :=
  (iSort (movCmp sort) rows.enum).map Prod.snd

/-- The ordinal rank of the fixed label of a grouped row. -/
def fijoRank (label : String) : Rat :=
  if label = "Sí" then 2 else if label = "Mixto" then 1 else 0

/-- The getValue comparison of sortGrouped per key. -/
def groupedPrimaryCmp (key : SortKey) (a b : GroupedRow) : Rat :=
  match key with
  | .fecha => a.latestDate - b.latestDate
  | .categoria => compareText a.categoryName b.categoryName
  | .detalle => compareText a.detailText b.detailText
  | .fijo => fijoRank a.fijoLabel - fijoRank b.fijoLabel
  | .importe => a.total - b.total

/-- The comparator sortGrouped passes to the array sort, with the total
as the secondary descending tie-break. -/
def groupedCmp (sort : SortState) (a b : Nat × GroupedRow) : Rat :=
  let result0 := groupedPrimaryCmp sort.key a.2 b.2
  let result := if sort.direction = SortDirection.desc then -result0 else result0
  if result = 0 ∧ sort.key ≠ SortKey.importe then
    let secondary := b.2.total - a.2.total
    if secondary ≠ 0 then secondary
    else if result ≠ 0 then result else (a.1 : Rat) - (b.1 : Rat)
  else if result ≠ 0 then result else (a.1 : Rat) - (b.1 : Rat)

/-- Source sortGrouped. -/
def sortGrouped (rows : List GroupedRow) (sort : SortState) : List GroupedRow :=
  (iSort (groupedCmp sort) rows.enum).map Prod.snd

theorem cmpGood_ext {c c' : α → α → Rat} (h : ∀ a b, c a b = c' a b)
    (h' : CmpGood c') : CmpGood c := by
  constructor
  · intro a b
    rw [h a b, h b a, h'.anti]
  · intro a b hab d
    rw [h a b] at hab
    rw [h a d, h b d]
    exact h'.subs a b hab d
  · intro a b d h1 h2
    rw [h a b] at h1
    rw [h b d] at h2
    rw [h a d]
    exact h'.ltTrans a b d h1 h2

theorem cmpGood_zero : CmpGood (fun _ _ : α => (0 : Rat)) := by
  constructor
  · intro a b
    norm_num
  · intro a b hab d
    rfl
  · intro a b d h1 h2
    norm_num at h1

theorem cmpGood_dir (dir : SortDirection) {c : α → α → Rat} (h : CmpGood c) :
    CmpGood (fun a b =>
      if dir = SortDirection.desc then -(c a b) else c a b) := by
  cases dir
  · exact cmpGood_ext
      (fun a b => by
        rw [if_neg (by decide : ¬ SortDirection.asc = SortDirection.desc)]) h
  · exact cmpGood_ext (fun a b => by rw [if_pos rfl]) h.neg

theorem cmpGood_movPrimary (key : SortKey) :
    CmpGood (fun a b : Nat × MovRow => movPrimaryCmp key a.2 b.2) := by
  cases key
  case fecha =>
    exact cmpGood_ext (fun a b => rfl)
      (cmpGood_diff (fun x : Nat × MovRow => (dateParse x.2.fecha).getD 0))
  case categoria =>
    exact cmpGood_ext (fun a b => rfl)
      (cmpGood_ofLex (fun x : Nat × MovRow =>
        (normalizeText x.2.categoryName).data))
  case detalle =>
    exact cmpGood_ext (fun a b => rfl)
      (cmpGood_ofLex (fun x : Nat × MovRow =>
        (normalizeText (x.2.detailText.getD "")).data))
  case fijo =>
    exact cmpGood_ext (fun a b => rfl)
      (cmpGood_diff (fun x : Nat × MovRow =>
        if x.2.fijo = JSVal.vBool true then (1 : Rat) else 0))
  case importe =>
    exact cmpGood_ext (fun a b => rfl)
      (cmpGood_diff (fun x : Nat × MovRow => |x.2.importe.getD 0|))

theorem cmpGood_groupedPrimary (key : SortKey) :
    CmpGood (fun a b : Nat × GroupedRow => groupedPrimaryCmp key a.2 b.2) := by
  cases key
  case fecha =>
    exact cmpGood_ext (fun a b => rfl)
      (cmpGood_diff (fun x : Nat × GroupedRow => x.2.latestDate))
  case categoria =>
    exact cmpGood_ext (fun a b => rfl)
      (cmpGood_ofLex (fun x : Nat × GroupedRow =>
        (normalizeText x.2.categoryName).data))
  case detalle =>
    exact cmpGood_ext (fun a b => rfl)
      (cmpGood_ofLex (fun x : Nat × GroupedRow =>
        (normalizeText x.2.detailText).data))
  case fijo =>
    exact cmpGood_ext (fun a b => rfl)
      (cmpGood_diff (fun x : Nat × GroupedRow => fijoRank x.2.fijoLabel))
  case importe =>
    exact cmpGood_ext (fun a b => rfl)
      (cmpGood_diff (fun x : Nat × GroupedRow => x.2.total))

theorem movCmp_eq (sort : SortState) (a b : Nat × MovRow) :
    movCmp sort a b =
      lex2 (if sort.direction = SortDirection.desc
          then -(movPrimaryCmp sort.key a.2 b.2)
          else movPrimaryCmp sort.key a.2 b.2)
        (lex2 (if sort.key = SortKey.importe then 0
            else |b.2.importe.getD 0| - |a.2.importe.getD 0|)
          ((a.1 : Rat) - (b.1 : Rat))) := by
  unfold movCmp lex2
  by_cases hk : sort.key = SortKey.importe <;>
    by_cases hr : (if sort.direction = SortDirection.desc
        then -(movPrimaryCmp sort.key a.2 b.2)
        else movPrimaryCmp sort.key a.2 b.2) = 0 <;>
      by_cases hs : |b.2.importe.getD 0| - |a.2.importe.getD 0| = 0 <;>
        simp [hk, hr, hs]

theorem groupedCmp_eq (sort : SortState) (a b : Nat × GroupedRow) :
    groupedCmp sort a b =
      lex2 (if sort.direction = SortDirection.desc
          then -(groupedPrimaryCmp sort.key a.2 b.2)
          else groupedPrimaryCmp sort.key a.2 b.2)
        (lex2 (if sort.key = SortKey.importe then 0
            else b.2.total - a.2.total)
          ((a.1 : Rat) - (b.1 : Rat))) := by
  unfold groupedCmp lex2
  by_cases hk : sort.key = SortKey.importe <;>
    by_cases hr : (if sort.direction = SortDirection.desc
        then -(groupedPrimaryCmp sort.key a.2 b.2)
        else groupedPrimaryCmp sort.key a.2 b.2) = 0 <;>
      by_cases hs : b.2.total - a.2.total = 0 <;>
        simp [hk, hr, hs]

theorem cmpGood_movSecondary (sort : SortState) :
    CmpGood (fun a b : Nat × MovRow =>
      if sort.key = SortKey.importe then 0
      else |b.2.importe.getD 0| - |a.2.importe.getD 0|) := by
  by_cases hk : sort.key = SortKey.importe
  · exact cmpGood_ext (fun a b => by rw [if_pos hk]) cmpGood_zero
  · exact cmpGood_ext (fun a b => by rw [if_neg hk]; ring)
      (cmpGood_diff (fun x : Nat × MovRow => -|x.2.importe.getD 0|))

theorem cmpGood_groupedSecondary (sort : SortState) :
    CmpGood (fun a b : Nat × GroupedRow =>
      if sort.key = SortKey.importe then 0
      else b.2.total - a.2.total) := by
  by_cases hk : sort.key = SortKey.importe
  · exact cmpGood_ext (fun a b => by rw [if_pos hk]) cmpGood_zero
  · exact cmpGood_ext (fun a b => by rw [if_neg hk]; ring)
      (cmpGood_diff (fun x : Nat × GroupedRow => -x.2.total))

theorem cmpGood_movCmp (sort : SortState) : CmpGood (movCmp sort) := by
  refine cmpGood_ext (movCmp_eq sort) ?_
  exact (cmpGood_dir sort.direction (cmpGood_movPrimary sort.key)).lex2comp
    ((cmpGood_movSecondary sort).lex2comp
      (cmpGood_diff (fun x : Nat × MovRow => (x.1 : Rat))))

theorem cmpGood_groupedCmp (sort : SortState) : CmpGood (groupedCmp sort) := by
  refine cmpGood_ext (groupedCmp_eq sort) ?_
  exact (cmpGood_dir sort.direction (cmpGood_groupedPrimary sort.key)).lex2comp
    ((cmpGood_groupedSecondary sort).lex2comp
      (cmpGood_diff (fun x : Nat × GroupedRow => (x.1 : Rat))))

theorem pairwise_ne_fst_enum (l : List α) :
    l.enum.Pairwise (fun x y => x.1 ≠ y.1) := by
  have h : (l.enum.map Prod.fst).Pairwise (fun a b => a ≠ b) := by
    rw [List.enum_map_fst]
    exact List.nodup_range _
  rw [List.pairwise_map] at h
  exact h

theorem chain'_enumFrom {R : α → α → Prop} {S : Nat × α → Nat × α → Prop}
    (h : ∀ (i : Nat) (a b : α), R a b → S (i, a) (i + 1, b)) :
    ∀ (n : Nat) (l : List α), l.Chain' R → (l.enumFrom n).Chain' S := by
  intro n l
  induction l generalizing n with
  | nil =>
    intro _
    exact List.chain'_nil
  | cons a t ih =>
    intro hc
    cases t with
    | nil => simp [List.enumFrom]
    | cons b t2 =>
      have hc' := List.chain'_cons.mp hc
      exact List.chain'_cons.mpr ⟨h n a b hc'.1, ih (n + 1) hc'.2⟩

theorem lex2_tie_consequence {R S I : Rat} (hne : I ≠ 0)
    (hle : lex2 R (lex2 S I) ≤ 0) (hR : R = 0) :
    S < 0 ∨ (S = 0 ∧ I < 0) := by
  subst hR
  unfold lex2 at hle
  rw [if_pos rfl] at hle
  by_cases hs : S = 0
  · rw [if_pos hs] at hle
    exact Or.inr ⟨hs, lt_of_le_of_ne hle hne⟩
  · rw [if_neg hs] at hle
    exact Or.inl (lt_of_le_of_ne hle hs)

theorem dirAdj_zero (dir : SortDirection) {p : Rat} (hp : p = 0) :
    (if dir = SortDirection.desc then -p else p) = 0 := by
  subst hp
  cases dir <;> simp

theorem sortMovements_perm (rows : List MovRow) (sort : SortState) :
    (sortMovements rows sort).Perm rows := by
  unfold sortMovements
  have h := (iSort_perm (movCmp sort) rows.enum).map Prod.snd
  rwa [List.enum_map_snd] at h

theorem sortGrouped_perm (rows : List GroupedRow) (sort : SortState) :
    (sortGrouped rows sort).Perm rows := by
  unfold sortGrouped
  have h := (iSort_perm (groupedCmp sort) rows.enum).map Prod.snd
  rwa [List.enum_map_snd] at h

theorem sortMovements_tiebreak (rows : List MovRow) (sort : SortState)
    (hkey : sort.key ≠ SortKey.importe) :
    (iSort (movCmp sort) rows.enum).Pairwise (fun x y =>
      movPrimaryCmp sort.key x.2 y.2 = 0 →
        (|y.2.importe.getD 0| < |x.2.importe.getD 0| ∨
          (|x.2.importe.getD 0| = |y.2.importe.getD 0| ∧ x.1 < y.1))) := by
  have hsorted := iSort_pairwise (cmpGood_movCmp sort) rows.enum
  have hperm := iSort_perm (movCmp sort) rows.enum
  have hne : (iSort (movCmp sort) rows.enum).Pairwise (fun x y => x.1 ≠ y.1) :=
    (hperm.pairwise_iff (fun h => Ne.symm h)).mpr (pairwise_ne_fst_enum rows)
  refine List.Pairwise.imp ?_ (hsorted.and hne)
  intro x y hxy hprim
  obtain ⟨hle, hneidx⟩ := hxy
  rw [movCmp_eq, if_neg hkey] at hle
  have hR := dirAdj_zero sort.direction hprim
  have hI : ((x.1 : Rat) - (y.1 : Rat)) ≠ 0 := by
    intro hc
    apply hneidx
    have hcast : (x.1 : Rat) = y.1 := by linarith
    exact_mod_cast hcast
  rcases lex2_tie_consequence hI hle hR with hS | ⟨hS0, hIlt⟩
  · left
    linarith
  · right
    refine ⟨by linarith, ?_⟩
    have hcast : (x.1 : Rat) < y.1 := by linarith
    exact_mod_cast hcast

theorem sortGrouped_tiebreak (rows : List GroupedRow) (sort : SortState)
    (hkey : sort.key ≠ SortKey.importe) :
    (iSort (groupedCmp sort) rows.enum).Pairwise (fun x y =>
      groupedPrimaryCmp sort.key x.2 y.2 = 0 →
        (y.2.total < x.2.total ∨ (x.2.total = y.2.total ∧ x.1 < y.1))) := by
  have hsorted := iSort_pairwise (cmpGood_groupedCmp sort) rows.enum
  have hperm := iSort_perm (groupedCmp sort) rows.enum
  have hne : (iSort (groupedCmp sort) rows.enum).Pairwise
      (fun x y => x.1 ≠ y.1) :=
    (hperm.pairwise_iff (fun h => Ne.symm h)).mpr (pairwise_ne_fst_enum rows)
  refine List.Pairwise.imp ?_ (hsorted.and hne)
  intro x y hxy hprim
  obtain ⟨hle, hneidx⟩ := hxy
  rw [groupedCmp_eq, if_neg hkey] at hle
  have hR := dirAdj_zero sort.direction hprim
  have hI : ((x.1 : Rat) - (y.1 : Rat)) ≠ 0 := by
    intro hc
    apply hneidx
    have hcast : (x.1 : Rat) = y.1 := by linarith
    exact_mod_cast hcast
  rcases lex2_tie_consequence hI hle hR with hS | ⟨hS0, hIlt⟩
  · left
    linarith
  · right
    refine ⟨by linarith, ?_⟩
    have hcast : (x.1 : Rat) < y.1 := by linarith
    exact_mod_cast hcast

theorem lex2_eq_of_zero {p : Rat} (h : p = 0) (q : Rat) : lex2 p q = q := by
  rw [lex2, if_pos h]

theorem lex2_eq_of_ne {p : Rat} (h : p ≠ 0) (q : Rat) : lex2 p q = p := by
  rw [lex2, if_neg h]

theorem sortMovements_desc_noop (rows : List MovRow)
    (hc : rows.Chain' (fun a b => |b.importe.getD 0| ≤ |a.importe.getD 0|)) :
    sortMovements rows ⟨SortKey.importe, SortDirection.desc⟩ = rows := by
  unfold sortMovements
  have hchain : rows.enum.Chain' (fun x y =>
      movCmp ⟨SortKey.importe, SortDirection.desc⟩ x y ≤ 0) := by
    refine chain'_enumFrom ?_ 0 rows hc
    intro i a b hR
    rw [movCmp_eq]
    dsimp only
    rw [if_pos rfl, if_pos rfl]
    rw [lex2_eq_of_zero rfl]
    have hP : movPrimaryCmp SortKey.importe a b =
        |a.importe.getD 0| - |b.importe.getD 0| := rfl
    by_cases hp : -(movPrimaryCmp SortKey.importe a b) = 0
    · rw [lex2_eq_of_zero hp]
      push_cast
      linarith
    · rw [lex2_eq_of_ne hp]
      rw [hP] at hp ⊢
      have h0 : 0 ≤ |a.importe.getD 0| - |b.importe.getD 0| := by linarith
      rcases lt_or_eq_of_le h0 with hlt | heq
      · linarith
      · exact absurd (by rw [← heq, neg_zero]) hp
  rw [iSort_of_chain hchain, List.enum_map_snd]

theorem sortGrouped_desc_noop (rows : List GroupedRow)
    (hc : rows.Chain' (fun a b => b.total ≤ a.total)) :
    sortGrouped rows ⟨SortKey.importe, SortDirection.desc⟩ = rows := by
  unfold sortGrouped
  have hchain : rows.enum.Chain' (fun x y =>
      groupedCmp ⟨SortKey.importe, SortDirection.desc⟩ x y ≤ 0) := by
    refine chain'_enumFrom ?_ 0 rows hc
    intro i a b hR
    rw [groupedCmp_eq]
    dsimp only
    rw [if_pos rfl, if_pos rfl]
    rw [lex2_eq_of_zero rfl]
    have hP : groupedPrimaryCmp SortKey.importe a b = a.total - b.total := rfl
    by_cases hp : -(groupedPrimaryCmp SortKey.importe a b) = 0
    · rw [lex2_eq_of_zero hp]
      push_cast
      linarith
    · rw [lex2_eq_of_ne hp]
      rw [hP] at hp ⊢
      have h0 : 0 ≤ a.total - b.total := by linarith
      rcases lt_or_eq_of_le h0 with hlt | heq
      · linarith
      · exact absurd (by rw [← heq, neg_zero]) hp
  rw [iSort_of_chain hchain, List.enum_map_snd]

/-- C4: over index-tagged rows, both sort engines order any two rows
whose primary key values compare equal by descending absolute amount
(descending total for grouped rows) and, when still tied, by their
original input position; both engines return a permutation of their
input, so the sort is a deterministic, stable total function; and sorting
a list already ordered by descending amount (descending total) under the
amount key with descending direction returns it unchanged. -/
theorem c4_sort_determinism_and_tiebreaks :
    (∀ (rows : List MovRow) (sort : SortState),
      sort.key ≠ SortKey.importe →
      (iSort (movCmp sort) rows.enum).Pairwise (fun x y =>
        movPrimaryCmp sort.key x.2 y.2 = 0 →
          (|y.2.importe.getD 0| < |x.2.importe.getD 0| ∨
            (|x.2.importe.getD 0| = |y.2.importe.getD 0| ∧ x.1 < y.1)))) ∧
    (∀ (rows : List GroupedRow) (sort : SortState),
      sort.key ≠ SortKey.importe →
      (iSort (groupedCmp sort) rows.enum).Pairwise (fun x y =>
        groupedPrimaryCmp sort.key x.2 y.2 = 0 →
          (y.2.total < x.2.total ∨ (x.2.total = y.2.total ∧ x.1 < y.1)))) ∧
    (∀ (rows : List MovRow) (sort : SortState),
      (sortMovements rows sort).Perm rows) ∧
    (∀ (rows : List GroupedRow) (sort : SortState),
      (sortGrouped rows sort).Perm rows) ∧
    (∀ rows : List MovRow,
      rows.Chain' (fun a b => |b.importe.getD 0| ≤ |a.importe.getD 0|) →
      sortMovements rows ⟨SortKey.importe, SortDirection.desc⟩ = rows) ∧
    (∀ rows : List GroupedRow,
      rows.Chain' (fun a b => b.total ≤ a.total) →
      sortGrouped rows ⟨SortKey.importe, SortDirection.desc⟩ = rows) :=
  ⟨sortMovements_tiebreak, sortGrouped_tiebreak, sortMovements_perm,
    sortGrouped_perm, sortMovements_desc_noop, sortGrouped_desc_noop⟩

/-- A concrete grouped row with the given total. -/
def gRowOf (total : Rat) : GroupedRow :=
  { key := "k"
    categoryName := "c"
    detailText := "d"
    total := total
    fijoLabel := "No"
    latestDate := 0 }

/-- Closed instance of C4: a concrete list already in descending-total
order is left unchanged by the descending amount sort. -/
theorem c4_witness :
    sortGrouped [gRowOf 5, gRowOf 3, gRowOf 3]
      ⟨SortKey.importe, SortDirection.desc⟩ =
      [gRowOf 5, gRowOf 3, gRowOf 3] := by
  exact c4_sort_determinism_and_tiebreaks.2.2.2.2.2
    [gRowOf 5, gRowOf 3, gRowOf 3]
    (List.chain'_cons.mpr ⟨by norm_num [gRowOf],
      List.chain'_cons.mpr ⟨by norm_num [gRowOf], List.chain'_singleton _⟩⟩)

/-- Decimal digit characters of a natural number, most significant
first. -/
def natDigits (n : Nat) : List Char :=
  if h : n < 10 then [Char.ofNat (48 + n)]
  else natDigits (n / 10) ++ [Char.ofNat (48 + n % 10)]
decreasing_by
  exact Nat.div_lt_self (Nat.lt_of_lt_of_le (by norm_num) (Nat.le_of_not_lt h))
    (by norm_num)

/-- Decimal string of an integer, the model of the JS number-to-string
conversion for the integral values the fijo field can hold. -/
def intStr (n : Int) : String :=
  if n < 0 then ⟨'-' :: natDigits n.natAbs⟩ else ⟨natDigits n.natAbs⟩

/-- Model of String(fijoRaw ?? "") in the yearly pivot: the null
coalescing maps null and undefined to the empty string before the String
conversion. -/
def jsValToString : JSVal → String
  | .vBool true => "true"
  | .vBool false => "false"
  | .vNum n => intStr n
  | .vStr s => s
  | .vNull => ""
  | .vUndef => ""

theorem natDigits_shape :
    ∀ n : Nat, ∃ d rest, d < 10 ∧
      natDigits n = Char.ofNat (48 + d) :: rest := by
  intro n
  induction n using natDigits.induct with
  | case1 n h =>
    exact ⟨n, [], h, by rw [natDigits, dif_pos h]⟩
  | case2 n h ih =>
    obtain ⟨d, rest, hd, heq⟩ := ih
    refine ⟨d, rest ++ [Char.ofNat (48 + n % 10)], hd, ?_⟩
    rw [natDigits, dif_neg h, heq]
    rfl

theorem digitChar_lower {d : Nat} (hd : d < 10) :
    jsCharLower (Char.ofNat (48 + d)) = Char.ofNat (48 + d) ∧
      Char.ofNat (48 + d) ≠ 't' := by
  interval_cases d <;> exact ⟨by decide, by decide⟩

theorem intStr_lower_ne (n : Int) :
    jsToLower (intStr n) ≠ "t" ∧ jsToLower (intStr n) ≠ "true" := by
  obtain ⟨d, rest, hd, hshape⟩ := natDigits_shape n.natAbs
  have hl := digitChar_lower hd
  unfold intStr jsToLower
  by_cases hn : n < 0
  · rw [if_pos hn]
    constructor <;>
      (intro hc
       have hdata := congrArg String.data hc
       simp only [List.map_cons] at hdata
       rw [show jsCharLower '-' = '-' from by decide] at hdata
       have : '-' = 't' := by
         have h2 := congrArg (fun l => l.headI) hdata
         simpa using h2
       exact absurd this (by decide))
  · rw [if_neg hn, hshape]
    constructor <;>
      (intro hc
       have hdata := congrArg String.data hc
       simp only [List.map_cons, hl.1] at hdata
       have : Char.ofNat (48 + d) = 't' := by
         have h2 := congrArg (fun l => l.headI) hdata
         simpa using h2
       exact absurd this hl.2)

/-- Source yearlyDisplay fixed-flag check: strict boolean true, the
number 1, the string "1", or a string whose lower-cased form is "true"
or "t". -/
def yearlyIsFijo (fijoRaw : JSVal) : Bool :=
  let fijoLabel := jsToLower (jsValToString fijoRaw)
  decide (fijoRaw = JSVal.vBool true) || decide (fijoRaw = JSVal.vNum 1) ||
    decide (fijoRaw = JSVal.vStr "1") || decide (fijoLabel = "true") ||
    decide (fijoLabel = "t")

/-- Source yearlyDisplay kind resolution: only the movement tipo text,
with the sign of the amount as fallback; the category kind is not
consulted here. -/
def yearlyKind (mov : Movimiento) : Kind :=
  match normalizeKindLabel mov.tipo with
  | some k => k
  | none => if mov.importe.getD 0 < 0 then .gasto else .ingreso

/-- Model of the year extraction Number(fecha.slice(0,4)) with the Date
constructor fallback, for the ISO formatted dates the store holds: the
leading digits when they form a nonzero number, otherwise none, standing
for the NaN that the finiteness check then skips. -/
def yearOf (fecha : String) : Option Int :=
  let head := fecha.data.take 4
  if head ≠ [] ∧ head.all Char.isDigit then
    let n := charDigits head
    if n ≠ 0 then some (n : Int) else none
  else none

/-- A year-indexed accumulator record: an object with numeric keys whose
reads default to zero. -/
abbrev YearMap := List (Int × Rat)

/-- Read one year cell with the zero default. -/
def recGet (r : YearMap) (y : Int) : Rat := (alGet r y).getD 0

/-- Source addTo: record[year] = (record[year] ?? 0) + amount. -/
def addTo (r : YearMap) (y : Int) (amount : Rat) : YearMap :=
  alSet r y (recGet r y + amount)

/-- One category entry of the yearly pivot accumulation. -/
structure YearlyEntry where
  category : String
  ingresoFijo : YearMap
  ingresoVariable : YearMap
  gastoFijo : YearMap
  gastoVariable : YearMap
deriving DecidableEq, Repr

/-- The fresh entry ensureCategory creates. -/
def newYearlyEntry (label : String) : YearlyEntry :=
  { category := label
    ingresoFijo := []
    ingresoVariable := []
    gastoFijo := []
    gastoVariable := [] }

/-- The running state of the yearlyDisplay accumulation: the set of seen
years and the insertion-ordered category map. -/
structure YearlyAccState where
  yearsSeen : List Int
  catMap : List (String × YearlyEntry)
deriving DecidableEq, Repr

/-- Add a year to the insertion-ordered year set. -/
def addYearSeen (l : List Int) (y : Int) : List Int :=
  if y ∈ l then l else l ++ [y]

/-- One movement step of the yearlyDisplay accumulation: the amount and
year gates, the year set insertion, the category and detail narrowing,
then the routing into exactly one of the four series. -/
def yearlyStep (selYear : Option Int) (selCategory selDetail : String)
    (st : YearlyAccState) (mov : Movimiento) : YearlyAccState :=
  let amount := |mov.importe.getD 0|
  if amount = 0 then st
  else
    let kind := yearlyKind mov
    let isFijo := yearlyIsFijo mov.fijo
    match yearOf mov.fecha with
    | none => st
    | some year =>
      if selYear.isSome && decide (selYear ≠ some year) then st
      else
        let st1 : YearlyAccState :=
          { st with yearsSeen := addYearSeen st.yearsSeen year }
        let categoryLabel := mov.categoria_nombre.getD "Sin categoría"
        if selCategory ≠ "todas" ∧ categoryLabel ≠ selCategory then st1
        else
          let detailLabel :=
            match mov.detalle with
            | some d => if 0 < (jsTrim d).data.length then jsTrim d
                else "Sin detalle"
            | none => "Sin detalle"
          if selDetail ≠ "todos" ∧ detailLabel ≠ selDetail then st1
          else
            let categoryKey := mov.categoria_id.getD categoryLabel
            let entry := (alGet st1.catMap categoryKey).getD
              (newYearlyEntry categoryLabel)
            let entry2 :=
              if kind = Kind.ingreso then
                if isFijo then
                  { entry with
                    ingresoFijo := addTo entry.ingresoFijo year amount }
                else
                  { entry with
                    ingresoVariable := addTo entry.ingresoVariable year amount }
              else if isFijo then
                { entry with gastoFijo := addTo entry.gastoFijo year amount }
              else
                { entry with
                  gastoVariable := addTo entry.gastoVariable year amount }
            { st1 with catMap := alSet st1.catMap categoryKey entry2 }

/-- One year of the totals fold of the yearly categories map step. -/
def yearlyTotalsStep (showI showG showF showV : Bool) (e : YearlyEntry)
    (acc : Rat × Rat) (year : Int) : Rat × Rat :=
  (acc.1 + (if showI && showF then recGet e.ingresoFijo year else 0) +
      (if showG && showF then recGet e.gastoFijo year else 0),
    acc.2 + (if showI && showV then recGet e.ingresoVariable year else 0) +
      (if showG && showV then recGet e.gastoVariable year else 0))

/-- The per-entry fixed and variable totals over the enabled series. -/
def yearlyTotals (showI showG showF showV : Bool) (years : List Int)
    (e : YearlyEntry) : Rat × Rat :=
  years.foldl (yearlyTotalsStep showI showG showF showV e) (0, 0)

/-- A ranked yearly pivot category row: the accumulated entry with its
totals over the enabled series. -/
structure YearlyCatRow extends YearlyEntry where
  totalFijo : Rat
  totalVariable : Rat
  total : Rat
deriving DecidableEq, Repr

/-- The yearly pivot output the claims concern. -/
structure YearlyDisplay where
  years : List Int
  categories : List YearlyCatRow
deriving DecidableEq, Repr

/-- Source yearlyDisplay, restricted to the sorted years list and the
ranked category rows; the per-year subtotals, grand totals and maximum
cell value it also returns are folds over these and are not needed by
the claims. -/
def yearlyDisplay (movs : List Movimiento) (showI showG showF showV : Bool)
    (selYear : Option Int) (selCategory selDetail : String) : YearlyDisplay :=
  let st := movs.foldl (yearlyStep selYear selCategory selDetail)
    { yearsSeen := [], catMap := [] }
  let years := iSort (fun a b : Int => (a : Rat) - (b : Rat)) st.yearsSeen
  let hasKind := showI || showG
  let hasFijo := showF || showV
  if years = [] ∨ hasKind = false ∨ hasFijo = false then
    { years := years, categories := [] }
  else
    { years := years
      categories :=
        iSort (fun a b => b.total - a.total)
          (((st.catMap.map Prod.snd).map (fun e =>
            let t := yearlyTotals showI showG showF showV years e
            { toYearlyEntry := e
              totalFijo := t.1
              totalVariable := t.2
              total := t.1 + t.2 })).filter (fun e => decide (0 < e.total))) }

/-- The per-year cell of an entry summed over the enabled series. -/
def yearlyEnabledCell (showI showG showF showV : Bool) (e : YearlyEntry)
    (year : Int) : Rat :=
  (if showI && showF then recGet e.ingresoFijo year else 0) +
    (if showG && showF then recGet e.gastoFijo year else 0) +
    (if showI && showV then recGet e.ingresoVariable year else 0) +
    (if showG && showV then recGet e.gastoVariable year else 0)

theorem yearlyTotals_aux (showI showG showF showV : Bool) (e : YearlyEntry) :
    ∀ (years : List Int) (acc : Rat × Rat),
      (years.foldl (yearlyTotalsStep showI showG showF showV e) acc).1 +
        (years.foldl (yearlyTotalsStep showI showG showF showV e) acc).2 =
        acc.1 + acc.2 +
          (years.map (yearlyEnabledCell showI showG showF showV e)).sum := by
  intro years
  induction years with
  | nil =>
    intro acc
    simp
  | cons y rest ih =>
    intro acc
    rw [List.foldl_cons, ih (yearlyTotalsStep showI showG showF showV e acc y)]
    simp only [List.map_cons, List.sum_cons, yearlyTotalsStep,
      yearlyEnabledCell]
    ring

theorem yearlyTotals_eq_sum (showI showG showF showV : Bool)
    (years : List Int) (e : YearlyEntry) :
    (yearlyTotals showI showG showF showV years e).1 +
      (yearlyTotals showI showG showF showV years e).2 =
      (years.map (yearlyEnabledCell showI showG showF showV e)).sum := by
  unfold yearlyTotals
  rw [yearlyTotals_aux]
  norm_num

/-- C7: every entry of the yearly pivot categories list has a strictly
positive total; that total equals the sum over the displayed years of the
per-year cells of the enabled series, so a category whose enabled values
are all zero cannot appear; and the list is sorted descending by total. -/
theorem c7_yearly_zero_total_pruning :
    ∀ (movs : List Movimiento) (showI showG showF showV : Bool)
      (selYear : Option Int) (selCategory selDetail : String),
      (∀ e ∈ (yearlyDisplay movs showI showG showF showV selYear selCategory
          selDetail).categories,
        0 < e.total ∧
          e.total = ((yearlyDisplay movs showI showG showF showV selYear
              selCategory selDetail).years.map
            (yearlyEnabledCell showI showG showF showV e.toYearlyEntry)).sum ∧
          ¬ (∀ y ∈ (yearlyDisplay movs showI showG showF showV selYear
              selCategory selDetail).years,
            yearlyEnabledCell showI showG showF showV e.toYearlyEntry y = 0)) ∧
      (yearlyDisplay movs showI showG showF showV selYear selCategory
          selDetail).categories.Pairwise (fun a b => b.total ≤ a.total) := by
  intro movs showI showG showF showV selYear selCategory selDetail
  unfold yearlyDisplay
  dsimp only
  split
  · constructor
    · intro e he
      simp at he
    · simp
  · constructor
    · intro e he
      dsimp only at he
      rw [(iSort_perm _ _).mem_iff, List.mem_filter] at he
      obtain ⟨hmem, hpos⟩ := he
      rw [List.mem_map] at hmem
      obtain ⟨ent, _, rfl⟩ := hmem
      rw [decide_eq_true_eq] at hpos
      dsimp only at hpos ⊢
      have hsum := yearlyTotals_eq_sum showI showG showF showV
        (iSort (fun a b : Int => (a : Rat) - (b : Rat))
          ((movs.foldl (yearlyStep selYear selCategory selDetail)
            { yearsSeen := [], catMap := [] }).yearsSeen)) ent
      refine ⟨hpos, hsum, ?_⟩
      intro hall
      have hzero : ((iSort (fun a b : Int => (a : Rat) - (b : Rat))
          ((movs.foldl (yearlyStep selYear selCategory selDetail)
            { yearsSeen := [], catMap := [] }).yearsSeen)).map
          (yearlyEnabledCell showI showG showF showV ent)).sum = 0 := by
        apply List.sum_eq_zero
        intro x hx
        rw [List.mem_map] at hx
        obtain ⟨y, hy, rfl⟩ := hx
        exact hall y hy
      rw [hzero] at hsum
      linarith
    · refine List.Pairwise.imp ?_
        (iSort_pairwise (cmpGood_ext (fun a b => by ring)
          (cmpGood_diff (fun x : YearlyCatRow => -x.total))) _)
      intro a b h
      have h2 : b.total - a.total ≤ 0 := h
      linarith

/-- C8: the yearly pivot accumulates a movement into a fixed series
exactly when its fijo value is the boolean true, the number 1, the
string "1", or a string equal to true or t case-insensitively; every
other runtime value, including null, undefined, false and the string
"0", routes it to the corresponding variable series. -/
theorem c8_yearly_fijo_tolerance :
    ∀ v : JSVal,
      yearlyIsFijo v = true ↔
        (v = JSVal.vBool true ∨ v = JSVal.vNum 1 ∨ v = JSVal.vStr "1" ∨
          (∃ s, v = JSVal.vStr s ∧
            (jsToLower s = "true" ∨ jsToLower s = "t"))) := by
  intro v
  cases v with
  | vBool b =>
    cases b
    · constructor
      · intro h
        exact absurd h (by decide)
      · rintro (h | h | h | ⟨s, hs, _⟩)
        · simp at h
        · simp at h
        · simp at h
        · simp at hs
    · constructor
      · intro _
        exact Or.inl rfl
      · intro _
        decide
  | vNum n =>
    have hne := intStr_lower_ne n
    unfold yearlyIsFijo jsValToString
    simp only [Bool.or_eq_true, decide_eq_true_eq]
    constructor
    · rintro ((((h | h) | h) | h) | h)
      · simp at h
      · exact Or.inr (Or.inl h)
      · simp at h
      · exact absurd h hne.2
      · exact absurd h hne.1
    · rintro (h | h | h | ⟨s, hs, _⟩)
      · simp at h
      · exact Or.inl (Or.inl (Or.inl (Or.inr h)))
      · simp at h
      · simp at hs
  | vStr s =>
    unfold yearlyIsFijo jsValToString
    simp only [Bool.or_eq_true, decide_eq_true_eq]
    constructor
    · rintro ((((h | h) | h) | h) | h)
      · simp at h
      · simp at h
      · exact Or.inr (Or.inr (Or.inl h))
      · exact Or.inr (Or.inr (Or.inr ⟨s, rfl, Or.inl h⟩))
      · exact Or.inr (Or.inr (Or.inr ⟨s, rfl, Or.inr h⟩))
    · rintro (h | h | h | ⟨s', hs, h⟩)
      · simp at h
      · simp at h
      · exact Or.inl (Or.inl (Or.inr h))
      · injection hs with hs'
        subst hs'
        rcases h with h | h
        · exact Or.inl (Or.inr h)
        · exact Or.inr h
  | vNull =>
    constructor
    · intro h
      exact absurd h (by decide)
    · rintro (h | h | h | ⟨s, hs, _⟩)
      · simp at h
      · simp at h
      · simp at h
      · simp at hs
  | vUndef =>
    constructor
    · intro h
      exact absurd h (by decide)
    · rintro (h | h | h | ⟨s, hs, _⟩)
      · simp at h
      · simp at h
      · simp at h
      · simp at hs

/-- Closed instance of C8: the string T is treated as fixed, the string
0 as variable. -/
theorem c8_witness :
    yearlyIsFijo (JSVal.vStr "T") = true ∧
      yearlyIsFijo (JSVal.vStr "0") = false := by
  constructor
  · exact (c8_yearly_fijo_tolerance (JSVal.vStr "T")).mpr
      (Or.inr (Or.inr (Or.inr ⟨"T", rfl, Or.inr (by decide)⟩)))
  · by_contra hc
    rw [Bool.not_eq_false] at hc
    rcases (c8_yearly_fijo_tolerance (JSVal.vStr "0")).mp hc with
      h | h | h | ⟨s, hs, h⟩
    · exact absurd h (by decide)
    · exact absurd h (by decide)
    · exact absurd h (by decide)
    · injection hs with hs'
      subst hs'
      rcases h with h | h <;> exact absurd h (by decide)

/-- A movement with unresolvable tipo text, a category kind that
resolves to ingreso, and a negative amount. -/
def mvPivotDivergence : Movimiento :=
  { id := "m10"
    fecha := "2023-05-01"
    tipo := some "transfer"
    importe := some (-50)
    categoria_nombre := some "Inversiones"
    categoria_kind := some "ingreso" }

/-- C10: the yearly pivot resolves the kind of a movement from its own
tipo text with the sign of the amount as the only fallback — the
category kind field never influences it — while resolveKind does consult
the category kind; hence the concrete divergent movement lands in the
gasto-variable series of the pivot although resolveKind classifies it as
ingreso. -/
theorem c10_yearly_kind_divergence :
    (∀ (mov : Movimiento) (ck ck' : Option String),
      yearlyKind { mov with categoria_kind := ck } =
        yearlyKind { mov with categoria_kind := ck' }) ∧
    yearlyKind mvPivotDivergence = Kind.gasto ∧
    resolveKind mvPivotDivergence = Kind.ingreso ∧
    (∃ e ∈ (yearlyDisplay [mvPivotDivergence] true true true true none
        "todas" "todos").categories,
      recGet e.gastoVariable 2023 = 50 ∧ recGet e.ingresoFijo 2023 = 0 ∧
        recGet e.ingresoVariable 2023 = 0 ∧ recGet e.gastoFijo 2023 = 0) := by
  refine ⟨fun mov ck ck' => rfl, by decide, by decide, ?_⟩
  have hk : yearlyKind mvPivotDivergence = Kind.gasto := by decide
  have hf : yearlyIsFijo mvPivotDivergence.fijo = false := by decide
  have hy : yearOf mvPivotDivergence.fecha = some 2023 := by decide
  have hamt : |(mvPivotDivergence.importe.getD 0)| = 50 := by
    norm_num [mvPivotDivergence]
  simp only [yearlyDisplay, List.foldl_cons, List.foldl_nil, yearlyStep,
    hk, hf, hy, hamt]
  norm_num [mvPivotDivergence, addYearSeen, addTo, recGet, alGet, alSet,
    newYearlyEntry, yearlyTotals, yearlyTotalsStep, iSort, oInsert]

/-- Closed instance of C3: the grouped total of a concrete singleton list
equals the absolute amount of its one movement. -/
theorem c3_witness :
    ((buildGroupedRows [toMovRow mvNegUnclass]
        { byCategory := true, byDetail := true }).map
      (fun row => row.total)).sum = 50 := by
  rw [c3_grouping_total_conservation [toMovRow mvNegUnclass]
    { byCategory := true, byDetail := true }]
  norm_num [toMovRow, mvNegUnclass]

/-- Closed instance of C7: the concrete pivot categories list of the
divergence movement is sorted descending by total. -/
theorem c7_witness :
    (yearlyDisplay [mvPivotDivergence] true true true true none
        "todas" "todos").categories.Pairwise (fun a b => b.total ≤ a.total) :=
  (c7_yearly_zero_total_pruning [mvPivotDivergence] true true true true none
    "todas" "todos").2
